import Mathlib

/-!
Shallow embedding of `src/gen_report/__main__.py` (the single module of the
gen-report tool) together with proofs about the claims on its specification.

Strings are modelled as `List Char` (`Str`), which matches Python's view of a
`str` as a sequence of code points.  Filesystem directories are modelled as
lists of entries; each entry carries the text that `load_markdown_from_file`
would extract for it, since extraction (disk reads, docx conversion) is an
external effect whose result the collector only consumes as an opaque string.
The LLM call and the process environment are likewise modelled as explicit
inputs.
-/

/-- Python strings are sequences of code points; we model them as `List Char`. -/
abbrev Str := List Char

/-- The literal marker `工作報告-` inside `MEMBER_REPORT_REGEX` (line 18). -/
def marker : Str := "工作報告-".toList

/-- Source line 19: `TEAM_REPORT_HINT = "之工作報告"`. -/
def TEAM_REPORT_HINT : Str := "之工作報告".toList

/-- The extension alternation `(?P<ext>docx|doc|md)` of `MEMBER_REPORT_REGEX`. -/
def extMatch (e : Str) : Bool :=
  e = "docx".toList || e = "doc".toList || e = "md".toList

/-- Tail of `MEMBER_REPORT_REGEX` after the name group: the literal marker,
then `(?P<date>\d{8})`, then a literal dot and the extension alternation,
anchored at the end of the string.  Returns the date and extension groups.
Here `\d` is modelled as an ASCII digit and `$` as the end of the string
(Python's `\d` also accepts other Unicode decimal digits and its `$` also
matches just before one trailing newline; filenames using those are outside
this model). -/
def matchTail (r : Str) : Option (Str × Str) :=
  if marker.isPrefixOf r then
    let r1 := r.drop marker.length
    let d := r1.take 8
    let r2 := r1.drop 8
    if d.length = 8 ∧ d.all Char.isDigit then
      match r2 with
      | '.' :: e => if extMatch e then some (d, e) else none
      | _ => none
    else none
  else none

/-- Backtracking loop of the non-greedy name group `(?P<name>.+?)`: the name
is grown one character at a time (never across a newline, since `.` does not
match a newline) and the first name length whose tail parses wins, exactly as
Python's regex engine backtracks.  `acc` is the name matched so far. -/
def matchFrom (acc : Str) : Str → Option (Str × Str × Str)
  | [] => none
  | c :: rest =>
    if c = '\n' then none
    else
      match matchTail rest with
      | some (d, e) => some (acc ++ [c], d, e)
      | none => matchFrom (acc ++ [c]) rest

/-- Model of `MEMBER_REPORT_REGEX.match(p.name)` (source line 18 applied at
line 60): `some (name, date, ext)` with the three named groups, or `none`
when the filename does not match. -/
def memberReportMatch (s : Str) : Option (Str × Str × Str) :=
  matchFrom [] s

/-- Specification-side description of the filename pattern
`<name>工作報告-<8-digit-date>.<docx|doc|md>`: the filename decomposes into a
non-empty name (without a newline, which `.` cannot match), the marker, an
8-digit date, a dot and one of the three extensions. -/
def IsMemberReportName (s n d e : Str) : Prop :=
  s = n ++ marker ++ d ++ '.' :: e ∧
  n ≠ [] ∧
  '\n' ∉ n ∧
  d.length = 8 ∧
  (∀ c ∈ d, c.isDigit = true) ∧
  (e = "docx".toList ∨ e = "doc".toList ∨ e = "md".toList)

/-- One directory entry as the scan at lines 57-58 sees it: the entry's
name, whether it is a regular file (`p.is_file()`), and the text that
`load_markdown_from_file` would extract from it (the extraction itself -
disk read or docx conversion, lines 29-53 - is an external effect; an entry
whose extraction fails carries the empty string, exactly what those
functions return on failure). -/
structure DirEntry where
  fname : Str
  file_p : Bool
  text : Str
deriving DecidableEq, Repr

/-- Model of `iter_member_reports` (lines 56-65): every regular file of the
directory whose name matches the regex yields the triple
`(name, date, path)`; the path is identified with its directory entry. -/
def iter_member_reports (entries : List DirEntry) : List (Str × Str × DirEntry) :=
  entries.filterMap fun E =>
    if E.file_p then
      (memberReportMatch E.fname).map fun r => (r.1, r.2.1, E)
    else none

/-- A member chunk `f"# {name}\n\n{text}"` (line 77). -/
def chunkOf (name text : Str) : Str :=
  '#' :: ' ' :: (name ++ '\n' :: '\n' :: text)

/-- The dict update `by_date.setdefault(date, []).append(chunk)` (line 77) on
an insertion-ordered association list, which is how a Python dict iterates. -/
def addChunk (m : List (Str × List Str)) (d : Str) (c : Str) : List (Str × List Str) :=
  match m with
  | [] => [(d, [c])]
  | (d', cs) :: rest =>
    if d' = d then (d', cs ++ [c]) :: rest else (d', cs) :: addChunk rest d c

/-- The grouping loop of `collect_examples` (lines 72-77): member reports
with an empty extraction are skipped, the rest are grouped by date in
first-seen order. -/
def byDate (entries : List DirEntry) : List (Str × List Str) :=
  (iter_member_reports entries).foldl
    (fun m r => if r.2.2.text = [] then m else addChunk m r.2.1 (chunkOf r.1 r.2.2.text))
    []

/-- Python's substring test `sub in s` on strings. -/
def substrOf (sub : Str) : Str → Bool
  | [] => sub.isEmpty
  | c :: rest => sub.isPrefixOf (c :: rest) || substrOf sub rest

/-- The team-report candidates (lines 81-83): regular files of the directory
whose name contains `TEAM_REPORT_HINT`, in directory order. -/
def team_candidates (entries : List DirEntry) : List DirEntry :=
  entries.filter fun E => E.file_p && substrOf TEAM_REPORT_HINT E.fname

/-- The candidate loop of lines 86-90: the first candidate whose filename
contains the date substring (the loop breaks there, whatever that
candidate's text turns out to be). -/
def firstDateCand (date : Str) : List DirEntry → Option DirEntry
  | [] => none
  | c :: rest => if substrOf date c.fname then some c else firstDateCand date rest

/-- The team-report text selected for one date group (lines 85-93): the text
of the first candidate whose filename contains the date; if that text is
empty (either because no candidate matched the date or because the matching
candidate extracted to nothing) and there is at least one candidate, the
text of the first candidate overall. -/
def teamTextFor (date : Str) (cands : List DirEntry) : Str :=
  let t :=
    match firstDateCand date cands with
    | some c => c.text
    | none => []
  if t = [] then
    match cands with
    | [] => []
    | c0 :: _ => c0.text
  else t

/-- Source lines 22-26: the `ExampleWeek` dataclass. -/
structure ExampleWeek where
  date : Str
  member_reports : List Str
  team_report : Str
deriving DecidableEq, Repr

/-- Model of `collect_examples` (lines 68-98): each date group becomes a
week paired with its team-report text, and a group whose team text resolves
to empty is dropped (`if team_text:` at line 94).  A missing or nonexistent
directory is simply the empty entry list. -/
def collect_examples (entries : List DirEntry) : List ExampleWeek :=
  (byDate entries).filterMap fun p =>
    let t := teamTextFor p.1 (team_candidates entries)
    if t = [] then none else some ⟨p.1, p.2, t⟩

/-- The duplicate-avoiding append of lines 121-125: chunks of a later week
are appended unless already present (`seen` starts as the set of the
existing chunks and tracks every append, so membership in `seen` is
membership in the list built so far). -/
def dedupAppend (existing : List Str) (new : List Str) : List Str :=
  new.foldl (fun acc mr => if mr ∈ acc then acc else acc ++ [mr]) existing

/-- Merging one later week into the existing entry of the same date
(lines 119-127): chunks are dedup-appended and the team report is replaced
only when the existing one is empty and the new one is not. -/
def mergeOne (x w : ExampleWeek) : ExampleWeek :=
  { date := x.date
    member_reports := dedupAppend x.member_reports w.member_reports
    team_report :=
      if x.team_report = [] ∧ w.team_report ≠ [] then w.team_report else x.team_report }

/-- One step of the merge loop of `collect_examples_from_dirs`
(lines 110-127) on the insertion-ordered association of dates to weeks: a
new date is appended at the end (dict insertion order), an existing date's
entry is merged in place. -/
def mergeWeek (ws : List ExampleWeek) (w : ExampleWeek) : List ExampleWeek :=
  match ws with
  | [] => [⟨w.date, w.member_reports, w.team_report⟩]
  | x :: rest =>
    if x.date = w.date then mergeOne x w :: rest else x :: mergeWeek rest w

/-- Model of `collect_examples_from_dirs` (lines 101-129): the per-directory
weeks are merged into a date-keyed insertion-ordered table, returned as a
list.  (`if not example_dirs: return []` coincides with folding over the
empty list.) -/
def collect_examples_from_dirs (dirs : List (List DirEntry)) : List ExampleWeek :=
  dirs.foldl (fun acc d => (collect_examples d).foldl mergeWeek acc) []

/-- Lexicographic comparison of Python strings by code point (`<` on `str`). -/
def strLt : Str → Str → Bool
  | [], [] => false
  | [], _ :: _ => true
  | _ :: _, [] => false
  | a :: xs, b :: ys => if a < b then true else if b < a then false else strLt xs ys

/-- Stable insertion of a week into a descending-by-date list: the week moves
past exactly the weeks with a strictly greater date, so ties keep their
original relative order. -/
def insertDesc (w : ExampleWeek) : List ExampleWeek → List ExampleWeek
  | [] => [w]
  | x :: xs => if strLt w.date x.date then x :: insertDesc w xs else w :: x :: xs

/-- Model of `sorted(weeks, key=lambda w: w.date, reverse=True)` (line 136):
the stable sort of the weeks by descending date.  Stable descending order is
unique, so this insertion sort computes the same list as Python's sort. -/
def sortDesc (ws : List ExampleWeek) : List ExampleWeek :=
  ws.foldr insertDesc []

/-- Python's `sep.join(parts)`. -/
def joinSep (sep : Str) : List Str → Str
  | [] => []
  | [x] => x
  | x :: xs => x ++ sep ++ joinSep sep xs

/-- One rendered few-shot block (line 140). -/
def exampleBlock (w : ExampleWeek) : Str :=
  "<EXAMPLE_WEEK date=".toList ++ w.date ++ ">\n<INPUT>\n".toList
    ++ joinSep ['\n'] w.member_reports
    ++ "\n</INPUT>\n<OUTPUT>\n".toList ++ w.team_report
    ++ "\n</OUTPUT>\n</EXAMPLE_WEEK>".toList

/-- Model of `build_few_shot_examples` (lines 132-142). -/
def build_few_shot_examples (weeks : List ExampleWeek) : Str :=
  if weeks = [] then []
  else joinSep "\n\n".toList ((sortDesc weeks).map exampleBlock)

/-- The `intro` literal of `build_prompt` (lines 146-149). -/
def introText : Str :=
  ("You are an assistant that aggregates individual weekly engineering reports into a concise, well-structured department report. "
    ++ "Summarize achievements, ongoing work, issues/risks, metrics, and next week plan. Keep factual, merge duplicates, and preserve important numbers.\n").toList

/-- The `instructions` literal of `build_prompt` (lines 150-157). -/
def instructionsText : Str :=
  ("Format sections based on projects' name."
    ++ "Plz try to keep projects consistent between examples and new report."
    ++ "'BONY觸控一體機','得鑫螺絲','得鑫螺絲HMI','EBONY觸控一體機'... 都屬於'螺絲案'的一部份。"
    ++ "'Resymot', 'Resymot GUI', 'iMotion-XYZ控制器'... 都屬於'iMotion-3dof'的一部份。"
    ++ "'育成計畫', '新人訓練'... 都屬於'教育訓練'的一部份。"
    ++ "Use bullet points; group similar items.").toList

/-- One indexed report tag of the target-input block (line 159). -/
def reportBlock (p : Nat × Str) : Str :=
  "<REPORT index=".toList ++ Nat.toDigits 10 p.1 ++ ">\n".toList ++ p.2 ++ "\n</REPORT>".toList

/-- The `input_block` of `build_prompt` (lines 158-160): the current week's
reports wrapped in tags indexed from 1. -/
def inputBlock (member_markdowns : List Str) : Str :=
  joinSep "\n\n".toList ((List.enumFrom 1 member_markdowns).map reportBlock)

/-- Model of `build_prompt` (lines 145-166); the few-shot section is inserted
only when `examples_block` is truthy, that is, non-empty. -/
def build_prompt (member_markdowns : List Str) (examples_block : Str) : Str :=
  introText ++ instructionsText ++ '\n' ::
    ((if examples_block = [] then []
      else '\n' :: ("FEW-SHOT EXAMPLES:\n".toList ++ examples_block ++ ['\n']))
      ++ '\n' :: ("TARGET INPUT:\n".toList ++ inputBlock member_markdowns
      ++ "\n\nGenerate the consolidated department weekly report in markdown now.".toList))

/-- Prompt assembly with no few-shot section at all, following the spec's
words that an empty example set means the few-shot section is omitted
entirely from the final prompt; compared with `build_prompt` on an empty
examples block. -/
def promptNoFewShot (member_markdowns : List Str) : Str :=
  introText ++ instructionsText ++ '\n' ::
    ('\n' :: ("TARGET INPUT:\n".toList ++ inputBlock member_markdowns
      ++ "\n\nGenerate the consolidated department weekly report in markdown now.".toList))

/-- Python float values reachable in `_parse_temperature`: a finite value
(every finite IEEE double is a rational, and the only arithmetic performed on
it is `min`/`max`, which returns one of its arguments, so rationals model the
computation exactly), or NaN, or an infinity. -/
inductive PyFloat where
  | fin (q : ℚ)
  | nan
  | inf
  | ninf
deriving DecidableEq, Repr

/-- Python's `<` on floats: NaN compares false with everything. -/
def pyLtB : PyFloat → PyFloat → Bool
  | .fin a, .fin b => decide (a < b)
  | .fin _, .inf => true
  | .ninf, .fin _ => true
  | .ninf, .inf => true
  | _, _ => false

/-- Python's binary `min(a, b)`: keeps `a` unless `b` compares smaller. -/
def pymin (a b : PyFloat) : PyFloat := if pyLtB b a then b else a

/-- Python's binary `max(a, b)`: keeps `a` unless `b` compares greater. -/
def pymax (a b : PyFloat) : PyFloat := if pyLtB a b then b else a

/-- Model of `_parse_temperature` (lines 173-184): `env_val` is
`os.getenv("TEMPERATURE")` and `pyfloat` is Python's `float()` conversion on
strings, `none` meaning the conversion raises.  Unset, unparseable and NaN
values fall back to 0.5; anything else is clamped to [0, 1] by
`max(0.0, min(1.0, t))`. -/
def _parse_temperature (env_val : Option Str) (pyfloat : Str → Option PyFloat) : PyFloat :=
  match env_val with
  | none => .fin (1 / 2)
  | some v =>
    match pyfloat v with
    | none => .fin (1 / 2)
    | some t =>
      if t = .nan then .fin (1 / 2)
      else pymax (.fin 0) (pymin (.fin 1) t)

/-- The message of the first choice of a provider response, with its
optional content string (`content` is `Optional[str]` in the source). -/
structure LLMMessage where
  content : Option Str
deriving DecidableEq, Repr

/-- One element of the response's `choices`. -/
structure LLMChoice where
  message : Option LLMMessage
deriving DecidableEq, Repr

/-- The provider response as `call_llm` reads it.  The source tolerates both
attribute-style and mapping-style access (lines 195-208); both paths resolve
the same `choices`/`message`/`content` fields, so the model carries the
fields once, with `none` for a missing or `None`-valued field. -/
structure LLMResponse where
  choices : Option (List LLMChoice)
deriving DecidableEq, Repr

/-- Outcome of `await acompletion(...)` together with everything else inside
the `try` block that can raise: either an exception whose formatted traceback
is `tb`, or a response value. -/
inductive CallOutcome where
  | raises (tb : Str)
  | ok (resp : LLMResponse)
deriving DecidableEq, Repr

/-- Observable result of one `call_llm` invocation: the returned value and
the lines written to the standard output and standard error streams. -/
structure CallResult where
  result : Option Str
  temperature_used : PyFloat
  stdout_lines : List Str
  stderr_lines : List Str
deriving DecidableEq, Repr

/-- The extraction of lines 195-209: `None` choices or an empty choices list
returns `None` (`if not choices`), a missing message returns `None`
(`if not message`), otherwise the content is returned as is - including an
empty string. -/
def extract_content (resp : LLMResponse) : Option Str :=
  match resp.choices with
  | none => none
  | some [] => none
  | some (first :: _) =>
    match first.message with
    | none => none
    | some msg => msg.content

/-- The body of `call_llm`'s `try` block (lines 171-209): an error is an
exception propagating out of the request or the extraction. -/
def call_llm_body (o : CallOutcome) : Except Str (Option Str) :=
  match o with
  | .raises tb => .error tb
  | .ok resp => .ok (extract_content resp)

/-- Model of `call_llm` (lines 169-212): the `try` body either returns the
extracted content or raises; a raised exception is caught, the line
`error occurred: <traceback>` is printed - Python's `print` writes to the
standard output stream - and `None` is returned.  The function itself is
total: no exception propagates to the caller. -/
def call_llm (env_val : Option Str) (pyfloat : Str → Option PyFloat)
    (o : CallOutcome) : CallResult :=
  let temperature := _parse_temperature env_val pyfloat
  match call_llm_body o with
  | .error tb =>
    { result := none
      temperature_used := temperature
      stdout_lines := ["error occurred: ".toList ++ tb]
      stderr_lines := [] }
  | .ok r =>
    { result := r
      temperature_used := temperature
      stdout_lines := []
      stderr_lines := [] }

/-- Filesystem writes and printed lines of the tail of the runner. -/
structure RunOut where
  writes : List (Str × Str)
  printed : List Str
deriving DecidableEq, Repr

/-- The completion message of line 298. -/
def reportWrittenMsg (out_path : Str) : Str :=
  "Report written to ".toList ++ out_path

/-- Model of the body of `_run` after the model call (lines 293-298),
taking `call_llm`'s returned value: the output file is written only when the
result is truthy (a non-empty string), and the completion message is printed
in every case. -/
def _run (report_md : Option Str) (out_path : Str) : RunOut :=
  { writes :=
      match report_md with
      | some s => if s = [] then [] else [(out_path, s)]
      | none => []
    printed := [reportWrittenMsg out_path] }

/-- Observable behaviour of the runner from the point where the prompt has
been assembled: printed lines in order, the prompts passed to the model, and
the files written. -/
structure RunnerOut where
  printed : List Str
  llm_calls : List Str
  writes : List (Str × Str)
deriving Repr

/-- Model of lines 290-300 of the entry point: when `--dry-run` is set the
prompt is printed, and then `asyncio.run(_run())` runs unconditionally, so
exactly one model call with the prompt happens either way, followed by the
conditional write and the completion message. -/
def runner_after_prompt (dry_run : Bool) (prompt out_path : Str)
    (env_val : Option Str) (pyfloat : Str → Option PyFloat) (o : CallOutcome) : RunnerOut :=
  let pre := if dry_run then [prompt] else []
  let c := call_llm env_val pyfloat o
  let r := _run c.result out_path
  { printed := pre ++ c.stdout_lines ++ r.printed
    llm_calls := [prompt]
    writes := r.writes }

/-- Proof-side helper: the first week of a list carrying the given date,
mirroring how the date-keyed merge table of `collect_examples_from_dirs` is
looked up. -/
def findWeek (date : Str) : List ExampleWeek → Option ExampleWeek
  | [] => none
  | w :: ws => if w.date = date then some w else findWeek date ws

theorem extMatch_iff {e : Str} :
    extMatch e = true ↔ (e = "docx".toList ∨ e = "doc".toList ∨ e = "md".toList) := by
  simp [extMatch, or_assoc]

theorem matchTail_eq_some {r d e : Str} (h : matchTail r = some (d, e)) :
    r = marker ++ (d ++ '.' :: e) ∧ d.length = 8 ∧ (∀ c ∈ d, c.isDigit = true) ∧
      extMatch e = true := by
  simp only [matchTail] at h
  split at h
  case isFalse => exact absurd h (by simp)
  case isTrue hp =>
    obtain ⟨t, ht⟩ : marker <+: r := List.isPrefixOf_iff_prefix.mp hp
    have hdrop : r.drop marker.length = t := by rw [← ht, List.drop_left]
    rw [hdrop] at h
    split at h
    case isFalse => exact absurd h (by simp)
    case isTrue hcond =>
      split at h
      case h_2 => exact absurd h (by simp)
      case h_1 e' heq =>
        split at h
        case isFalse => exact absurd h (by simp)
        case isTrue hext =>
          simp only [Option.some.injEq, Prod.mk.injEq] at h
          obtain ⟨hd, he⟩ := h
          have htde : t = List.take 8 t ++ '.' :: e' := by
            conv_lhs => rw [← List.take_append_drop 8 t]
            rw [heq]
          subst hd; subst he
          refine ⟨?_, hcond.1, fun c hc => List.all_eq_true.mp hcond.2 c hc, hext⟩
          rw [← ht]
          exact congrArg (marker ++ ·) htde

theorem matchTail_decomp {d e : Str} (hd : d.length = 8)
    (hdig : ∀ c ∈ d, c.isDigit = true) (he : extMatch e = true) :
    matchTail (marker ++ (d ++ '.' :: e)) = some (d, e) := by
  have hp : marker.isPrefixOf (marker ++ (d ++ '.' :: e)) = true :=
    List.isPrefixOf_iff_prefix.mpr ⟨_, rfl⟩
  simp only [matchTail, hp, if_true, List.drop_left]
  have h1 : (d ++ '.' :: e).take 8 = d := by rw [← hd, List.take_left]
  have h2 : (d ++ '.' :: e).drop 8 = '.' :: e := by rw [← hd, List.drop_left]
  rw [h1, h2, if_pos ⟨hd, List.all_eq_true.mpr hdig⟩]
  split
  next e'' heq =>
    injection heq with _ h2
    subst h2
    rw [if_pos he]
  next hne => exact absurd rfl (hne e)

theorem matchFrom_eq_some :
    ∀ (rest acc n d e : Str), matchFrom acc rest = some (n, d, e) →
      ∃ n1, n = acc ++ n1 ∧ n1 ≠ [] ∧ '\n' ∉ n1 ∧
        rest = n1 ++ marker ++ d ++ '.' :: e ∧ d.length = 8 ∧
        (∀ c ∈ d, c.isDigit = true) ∧ extMatch e = true := by
  intro rest
  induction rest with
  | nil => intro acc n d e h; exact absurd h (by simp [matchFrom])
  | cons c rest ih =>
    intro acc n d e h
    simp only [matchFrom] at h
    split at h
    case isTrue => exact absurd h (by simp)
    case isFalse hc =>
      split at h
      case h_1 d0 e0 htail =>
        simp only [Option.some.injEq, Prod.mk.injEq] at h
        obtain ⟨hn, hd0, he0⟩ := h
        subst hn; subst hd0; subst he0
        obtain ⟨hr, hlen, hdig, hext⟩ := matchTail_eq_some htail
        refine ⟨[c], rfl, by simp, fun h => hc (List.mem_singleton.mp h).symm,
          ?_, hlen, hdig, hext⟩
        simp [hr, List.append_assoc]
      case h_2 htail =>
        obtain ⟨n1, hn, hne, hnl, hrest, hlen, hdig, hext⟩ := ih (acc ++ [c]) n d e h
        refine ⟨c :: n1, by simp [hn], by simp, ?_, ?_, hlen, hdig, hext⟩
        · simp only [List.mem_cons, not_or]
          exact ⟨fun h => hc h.symm, hnl⟩
        · simp [hrest, List.append_assoc]

theorem matchFrom_ne_none :
    ∀ (n rest acc d e : Str), rest = n ++ marker ++ d ++ '.' :: e → n ≠ [] →
      '\n' ∉ n → d.length = 8 → (∀ c ∈ d, c.isDigit = true) → extMatch e = true →
      matchFrom acc rest ≠ none := by
  intro n
  induction n with
  | nil => intro rest acc d e _ hne; exact absurd rfl hne
  | cons c n ih =>
    intro rest acc d e hrest _ hnl hd hdig hext
    have hc : ¬ c = '\n' := fun h => hnl (by simp [h])
    have hrest' : rest = c :: (n ++ marker ++ d ++ '.' :: e) := by
      simp [hrest, List.append_assoc]
    subst hrest'
    simp only [matchFrom, if_neg hc]
    split
    next => simp
    next htail =>
      by_cases hn0 : n = []
      · subst hn0
        rw [show ([] : Str) ++ marker ++ d ++ '.' :: e = marker ++ (d ++ '.' :: e) by
          simp [List.append_assoc]] at htail
        rw [matchTail_decomp hd hdig hext] at htail
        exact absurd htail (by simp)
      · exact ih (n ++ marker ++ d ++ '.' :: e) (acc ++ [c]) d e rfl hn0
          (fun h => hnl (List.mem_cons_of_mem c h)) hd hdig hext

/-- C1: a filename matches `MEMBER_REPORT_REGEX` exactly when it decomposes
as `<name>工作報告-<8-digit-date>.<docx|doc|md>`, the extracted groups are
exactly the parts of that decomposition, `iter_member_reports` yields the
triple `(name, date, path)` for every regular file whose name matches, and a
file whose name admits no such decomposition is never yielded. -/
theorem claim_C1 :
    (∀ s n d e : Str, memberReportMatch s = some (n, d, e) → IsMemberReportName s n d e) ∧
    (∀ s : Str, (∃ n d e, IsMemberReportName s n d e) →
      ∃ n d e, memberReportMatch s = some (n, d, e) ∧ IsMemberReportName s n d e) ∧
    (∀ (entries : List DirEntry) (E : DirEntry) (n d e : Str), E ∈ entries →
      E.file_p = true → memberReportMatch E.fname = some (n, d, e) →
      (n, d, E) ∈ iter_member_reports entries) ∧
    (∀ (entries : List DirEntry) (E : DirEntry) (n d : Str),
      (∀ n' d' e', ¬ IsMemberReportName E.fname n' d' e') →
      (n, d, E) ∉ iter_member_reports entries) := by
  have sound : ∀ s n d e : Str, memberReportMatch s = some (n, d, e) →
      IsMemberReportName s n d e := by
    intro s n d e h
    obtain ⟨n1, hn, hne, hnl, hs, hd, hdig, hext⟩ := matchFrom_eq_some s [] n d e h
    rw [List.nil_append] at hn
    subst hn
    exact ⟨hs, hne, hnl, hd, hdig, extMatch_iff.mp hext⟩
  refine ⟨sound, ?_, ?_, ?_⟩
  · intro s ⟨n, d, e, hs, hne, hnl, hd, hdig, hext⟩
    have hnn : matchFrom [] s ≠ none :=
      matchFrom_ne_none n s [] d e hs hne hnl hd hdig (extMatch_iff.mpr hext)
    cases hm : memberReportMatch s with
    | none => exact absurd hm hnn
    | some r =>
      obtain ⟨n2, d2, e2⟩ := r
      exact ⟨n2, d2, e2, rfl, sound s n2 d2 e2 hm⟩
  · intro entries E n d e hE hf hm
    exact List.mem_filterMap.mpr ⟨E, hE, by simp [hf, hm]⟩
  · intro entries E n d hnone hmem
    obtain ⟨E', hE', hf⟩ := List.mem_filterMap.mp hmem
    revert hf
    split
    case isTrue hfp =>
      cases hm2 : memberReportMatch E'.fname with
      | none => simp
      | some r =>
        intro hf
        simp only [Option.map_some', Option.some.injEq, Prod.mk.injEq] at hf
        obtain ⟨h1, h2, h3⟩ := hf
        subst h3
        exact hnone r.1 r.2.1 r.2.2 (sound E'.fname r.1 r.2.1 r.2.2 hm2)
    case isFalse => simp

/-- Witness for C1 at a concrete matching filename and directory. -/
theorem claim_C1_witness :
    IsMemberReportName "A工作報告-20240101.md".toList
      "A".toList "20240101".toList "md".toList ∧
    ("A".toList, "20240101".toList,
      (⟨"A工作報告-20240101.md".toList, true, "text".toList⟩ : DirEntry)) ∈
      iter_member_reports [⟨"A工作報告-20240101.md".toList, true, "text".toList⟩] :=
  ⟨claim_C1.1 _ _ _ _ (by decide),
    claim_C1.2.2.1 [⟨"A工作報告-20240101.md".toList, true, "text".toList⟩]
      ⟨"A工作報告-20240101.md".toList, true, "text".toList⟩
      "A".toList "20240101".toList "md".toList
      (by decide) (by decide) (by decide)⟩

theorem collect_examples_team_ne {entries : List DirEntry} {w : ExampleWeek}
    (h : w ∈ collect_examples entries) : w.team_report ≠ [] := by
  obtain ⟨p, hp, hf⟩ := List.mem_filterMap.mp h
  revert hf
  simp only []
  split
  next => simp
  next hne =>
    intro hf
    cases hf
    exact hne

theorem mergeOne_team_ne {x w : ExampleWeek} (hx : x.team_report ≠ []) :
    (mergeOne x w).team_report = x.team_report := by
  simp only [mergeOne]
  rw [if_neg]
  intro ⟨h1, _⟩
  exact hx h1

theorem mergeWeek_team_ne {ws : List ExampleWeek} {w : ExampleWeek}
    (hws : ∀ x ∈ ws, x.team_report ≠ []) (hw : w.team_report ≠ []) :
    ∀ x ∈ mergeWeek ws w, x.team_report ≠ [] := by
  induction ws with
  | nil =>
    intro x hx
    simp only [mergeWeek, List.mem_singleton] at hx
    subst hx
    exact hw
  | cons y rest ih =>
    intro x hx
    simp only [mergeWeek] at hx
    split at hx
    · rcases List.mem_cons.mp hx with rfl | hx
      · rw [mergeOne_team_ne (hws y (List.mem_cons_self y rest))]
        exact hws y (List.mem_cons_self y rest)
      · exact hws x (List.mem_cons_of_mem y hx)
    · rcases List.mem_cons.mp hx with rfl | hx
      · exact hws x (List.mem_cons_self x rest)
      · exact ih (fun z hz => hws z (List.mem_cons_of_mem y hz)) x hx

theorem foldl_mergeWeek_team_ne {acc ws : List ExampleWeek}
    (hacc : ∀ x ∈ acc, x.team_report ≠ []) (hws : ∀ w ∈ ws, w.team_report ≠ []) :
    ∀ x ∈ ws.foldl mergeWeek acc, x.team_report ≠ [] := by
  induction ws generalizing acc with
  | nil => simpa using hacc
  | cons w rest ih =>
    simp only [List.foldl_cons]
    exact ih
      (mergeWeek_team_ne hacc (hws w (List.mem_cons_self w rest)))
      (fun z hz => hws z (List.mem_cons_of_mem w hz))

/-- C3: every week produced by `collect_examples`, and every week produced by
`collect_examples_from_dirs`, carries a non-empty team report; a date group
whose team text resolves to empty never appears in the output. -/
theorem claim_C3 :
    (∀ (entries : List DirEntry) (w : ExampleWeek),
      w ∈ collect_examples entries → w.team_report ≠ []) ∧
    (∀ (dirs : List (List DirEntry)) (w : ExampleWeek),
      w ∈ collect_examples_from_dirs dirs → w.team_report ≠ []) := by
  refine ⟨fun entries w h => collect_examples_team_ne h, ?_⟩
  intro dirs
  suffices h : ∀ acc, (∀ x ∈ acc, x.team_report ≠ []) →
      ∀ x ∈ dirs.foldl (fun acc d => (collect_examples d).foldl mergeWeek acc) acc,
        x.team_report ≠ [] by
    intro w hw
    exact h [] (by simp) w hw
  induction dirs with
  | nil => intro acc hacc; simpa using hacc
  | cons d rest ih =>
    intro acc hacc
    simp only [List.foldl_cons]
    exact ih _ (foldl_mergeWeek_team_ne hacc (fun z hz => collect_examples_team_ne hz))

/-- Witness for C3 on a one-file directory whose single file is both a member
report and its own team-report candidate. -/
theorem claim_C3_witness :
    (⟨"20240101".toList, [chunkOf "X之".toList "t".toList], "t".toList⟩ : ExampleWeek) ∈
      collect_examples [⟨"X之工作報告-20240101.md".toList, true, "t".toList⟩] ∧
    (⟨"20240101".toList, [chunkOf "X之".toList "t".toList], "t".toList⟩ :
      ExampleWeek).team_report ≠ [] :=
  ⟨by decide,
    claim_C3.1 [⟨"X之工作報告-20240101.md".toList, true, "t".toList⟩]
      ⟨"20240101".toList, [chunkOf "X之".toList "t".toList], "t".toList⟩ (by decide)⟩

/-- C9: a file such as `部門之工作報告-20231225.md` matches the member-report
regex (non-greedy name `部門之`) and contains the team-report hint, so with a
non-empty extraction `t` it contributes `t` both as the member chunk of its
date group and as that week's team report. -/
theorem claim_C9 :
    ∀ t : Str, t ≠ [] →
      collect_examples [⟨"部門之工作報告-20231225.md".toList, true, t⟩] =
        [⟨"20231225".toList, [chunkOf "部門之".toList t], t⟩] := by
  intro t ht
  have h1 : iter_member_reports [⟨"部門之工作報告-20231225.md".toList, true, t⟩] =
      [("部門之".toList, "20231225".toList,
        ⟨"部門之工作報告-20231225.md".toList, true, t⟩)] := by rfl
  have h2 : byDate [⟨"部門之工作報告-20231225.md".toList, true, t⟩] =
      [("20231225".toList, [chunkOf "部門之".toList t])] := by
    rw [byDate, h1]
    simp only [List.foldl_cons, List.foldl_nil]
    rw [if_neg (show ¬ ((⟨"部門之工作報告-20231225.md".toList, true, t⟩ :
      DirEntry).text = []) from ht)]
    rfl
  have h3 : team_candidates [⟨"部門之工作報告-20231225.md".toList, true, t⟩] =
      [⟨"部門之工作報告-20231225.md".toList, true, t⟩] := by rfl
  have h4 : teamTextFor "20231225".toList
      [⟨"部門之工作報告-20231225.md".toList, true, t⟩] = t := by
    have h5 : firstDateCand "20231225".toList
        [⟨"部門之工作報告-20231225.md".toList, true, t⟩] =
        some ⟨"部門之工作報告-20231225.md".toList, true, t⟩ := by rfl
    simp only [teamTextFor, h5]
    rw [if_neg (show ¬ ((⟨"部門之工作報告-20231225.md".toList, true, t⟩ :
      DirEntry).text = []) from ht)]
  rw [collect_examples, h2, h3]
  simp only [List.filterMap_cons, List.filterMap_nil, h4]
  rw [if_neg ht]

/-- Witness for C9 at the extraction text `r`. -/
theorem claim_C9_witness :
    collect_examples [⟨"部門之工作報告-20231225.md".toList, true, "r".toList⟩] =
      [⟨"20231225".toList, [chunkOf "部門之".toList "r".toList], "r".toList⟩] :=
  claim_C9 "r".toList (by decide)

/-- C10: the candidate scan for a date group stops at the first candidate
whose filename contains the date even when that candidate's text is empty;
the fallback then takes the first candidate overall, never a later
date-matching candidate.  In the scenario, `甲之工作報告-20240101` is the
first date-matching candidate and extracts to nothing, so the week's team
report is the date-less first candidate's `t0`, not the later date-matching
candidate's `t2`. -/
theorem claim_C10 :
    (∀ (date : Str) (cands : List DirEntry) (c : DirEntry),
      firstDateCand date cands = some c → c.text = [] →
      teamTextFor date cands =
        (match cands with | [] => ([] : Str) | c0 :: _ => c0.text)) ∧
    (∀ tm t0 t2 : Str, tm ≠ [] → t0 ≠ [] →
      collect_examples
        [⟨"A工作報告-20240101.md".toList, true, tm⟩,
         ⟨"隊之工作報告.md".toList, true, t0⟩,
         ⟨"甲之工作報告-20240101".toList, true, []⟩,
         ⟨"乙之工作報告-20240101".toList, true, t2⟩] =
      [⟨"20240101".toList, [chunkOf "A".toList tm], t0⟩]) := by
  constructor
  · intro date cands c hfirst hc
    simp only [teamTextFor, hfirst, hc, if_pos]
  · intro tm t0 t2 htm ht0
    have h1 : byDate
        [⟨"A工作報告-20240101.md".toList, true, tm⟩,
         ⟨"隊之工作報告.md".toList, true, t0⟩,
         ⟨"甲之工作報告-20240101".toList, true, []⟩,
         ⟨"乙之工作報告-20240101".toList, true, t2⟩] =
        [("20240101".toList, [chunkOf "A".toList tm])] := by
      rw [byDate]
      rw [show iter_member_reports
        [⟨"A工作報告-20240101.md".toList, true, tm⟩,
         ⟨"隊之工作報告.md".toList, true, t0⟩,
         ⟨"甲之工作報告-20240101".toList, true, []⟩,
         ⟨"乙之工作報告-20240101".toList, true, t2⟩] =
        [("A".toList, "20240101".toList,
          ⟨"A工作報告-20240101.md".toList, true, tm⟩)] from rfl]
      simp only [List.foldl_cons, List.foldl_nil]
      rw [if_neg (show ¬ ((⟨"A工作報告-20240101.md".toList, true, tm⟩ :
        DirEntry).text = []) from htm)]
      rfl
    have h2 : teamTextFor "20240101".toList (team_candidates
        [⟨"A工作報告-20240101.md".toList, true, tm⟩,
         ⟨"隊之工作報告.md".toList, true, t0⟩,
         ⟨"甲之工作報告-20240101".toList, true, []⟩,
         ⟨"乙之工作報告-20240101".toList, true, t2⟩]) = t0 := by rfl
    rw [collect_examples, h1]
    simp only [List.filterMap_cons, List.filterMap_nil, h2]
    rw [if_neg ht0]

/-- Witness for C10 at concrete member and candidate texts. -/
theorem claim_C10_witness :
    collect_examples
        [⟨"A工作報告-20240101.md".toList, true, "m".toList⟩,
         ⟨"隊之工作報告.md".toList, true, "z".toList⟩,
         ⟨"甲之工作報告-20240101".toList, true, []⟩,
         ⟨"乙之工作報告-20240101".toList, true, "q".toList⟩] =
      [⟨"20240101".toList, [chunkOf "A".toList "m".toList], "z".toList⟩] :=
  claim_C10.2 "m".toList "z".toList "q".toList (by decide) (by decide)

theorem strLt_asymm : ∀ a b : Str, strLt a b = true → strLt b a = false := by
  intro a
  induction a with
  | nil =>
    intro b h
    cases b with
    | nil => simp [strLt] at h
    | cons d ds => simp [strLt]
  | cons c cs ih =>
    intro b h
    cases b with
    | nil => simp [strLt] at h
    | cons d ds =>
      simp only [strLt] at h ⊢
      by_cases h1 : c < d
      · have h2 : ¬ d < c := fun hh => absurd h1 (lt_asymm hh)
        rw [if_neg h2, if_pos h1]
      · rw [if_neg h1] at h
        by_cases h2 : d < c
        · rw [if_pos h2] at h
          cases h
        · rw [if_neg h2] at h
          rw [if_neg h2, if_neg h1]
          exact ih ds h

theorem strLt_or : ∀ a b : Str, a ≠ b → strLt a b = true ∨ strLt b a = true := by
  intro a
  induction a with
  | nil =>
    intro b hne
    cases b with
    | nil => exact absurd rfl hne
    | cons d ds => left; simp [strLt]
  | cons c cs ih =>
    intro b hne
    cases b with
    | nil => right; simp [strLt]
    | cons d ds =>
      rcases lt_trichotomy c d with h1 | h1 | h1
      · left; simp [strLt, h1]
      · subst h1
        have hne2 : cs ≠ ds := fun h => hne (by rw [h])
        rcases ih ds hne2 with h2 | h2
        · left; simp [strLt, lt_irrefl, h2]
        · right; simp [strLt, lt_irrefl, h2]
      · right; simp [strLt, h1]

theorem chain'_imp2 {α : Type} {P Q S : α → α → Prop}
    (h : ∀ a b, P a b → Q a b → S a b) :
    ∀ l : List α, List.Chain' P l → List.Chain' Q l → List.Chain' S l := by
  intro l
  induction l with
  | nil => intros; simp
  | cons a l ih =>
    cases l with
    | nil => intros; simp
    | cons b l2 =>
      intro hp hq
      rw [List.chain'_cons] at hp hq ⊢
      exact ⟨h a b hp.1 hq.1, ih hp.2 hq.2⟩

theorem chain'_insertDesc (w : ExampleWeek) :
    ∀ l, List.Chain' (fun a b => strLt a.date b.date = false) l →
      List.Chain' (fun a b => strLt a.date b.date = false) (insertDesc w l) := by
  intro l
  induction l with
  | nil => intro _; simp [insertDesc]
  | cons x xs ih =>
    intro h
    simp only [insertDesc]
    split
    case isTrue hlt =>
      have hxs := (List.chain'_cons'.mp h).2
      apply List.chain'_cons'.mpr
      refine ⟨?_, ih hxs⟩
      intro y hy
      cases xs with
      | nil =>
        simp only [insertDesc, List.head?_cons, Option.mem_def, Option.some.injEq] at hy
        subst hy
        exact strLt_asymm _ _ hlt
      | cons z zs =>
        simp only [insertDesc] at hy
        split at hy
        · simp only [List.head?_cons, Option.mem_def, Option.some.injEq] at hy
          subst hy
          exact (List.chain'_cons'.mp h).1 z (by simp)
        · simp only [List.head?_cons, Option.mem_def, Option.some.injEq] at hy
          subst hy
          exact strLt_asymm _ _ hlt
    case isFalse hnlt =>
      have hf : strLt w.date x.date = false := by
        cases hb : strLt w.date x.date
        · rfl
        · exact absurd hb hnlt
      exact List.chain'_cons.mpr ⟨hf, h⟩

theorem insertDesc_perm (w : ExampleWeek) : ∀ l, (insertDesc w l).Perm (w :: l) := by
  intro l
  induction l with
  | nil => simp [insertDesc]
  | cons x xs ih =>
    simp only [insertDesc]
    split
    · exact (List.Perm.cons x ih).trans (List.Perm.swap w x xs)
    · exact List.Perm.refl _

theorem sortDesc_perm : ∀ ws : List ExampleWeek, (sortDesc ws).Perm ws := by
  intro ws
  induction ws with
  | nil => simp [sortDesc]
  | cons a l ih =>
    simp only [sortDesc, List.foldr_cons]
    exact (insertDesc_perm a _).trans (List.Perm.cons a ih)

theorem sortDesc_chain' :
    ∀ ws : List ExampleWeek,
      List.Chain' (fun a b => strLt a.date b.date = false) (sortDesc ws) := by
  intro ws
  induction ws with
  | nil => simp [sortDesc]
  | cons a l ih =>
    simp only [sortDesc, List.foldr_cons]
    exact chain'_insertDesc a _ ih

/-- C4 (amended): `build_few_shot_examples` renders the weeks sorted by date
in non-increasing order - strictly descending whenever the weeks' dates are
pairwise distinct, as they are for collector output - the empty list yields
the empty string, and `build_prompt` omits the few-shot section (its header
included) exactly when the examples block is empty. -/
theorem claim_C4_amended :
    build_few_shot_examples [] = [] ∧
    (∀ weeks : List ExampleWeek,
      build_few_shot_examples weeks =
        joinSep "\n\n".toList ((sortDesc weeks).map exampleBlock)) ∧
    (∀ weeks : List ExampleWeek, (sortDesc weeks).Perm weeks) ∧
    (∀ weeks : List ExampleWeek,
      List.Chain' (fun a b => strLt a.date b.date = false) (sortDesc weeks)) ∧
    (∀ weeks : List ExampleWeek, (weeks.map ExampleWeek.date).Nodup →
      List.Chain' (fun a b => strLt b.date a.date = true) (sortDesc weeks)) ∧
    (∀ mm : List Str, build_prompt mm [] = promptNoFewShot mm) ∧
    (∀ (mm : List Str) (eb : Str), eb ≠ [] →
      build_prompt mm eb =
        introText ++ instructionsText ++ '\n' ::
          (('\n' :: ("FEW-SHOT EXAMPLES:\n".toList ++ eb ++ ['\n']))
            ++ '\n' :: ("TARGET INPUT:\n".toList ++ inputBlock mm
            ++ "\n\nGenerate the consolidated department weekly report in markdown now.".toList))) := by
  refine ⟨rfl, ?_, sortDesc_perm, sortDesc_chain', ?_, ?_, ?_⟩
  · intro weeks
    by_cases h : weeks = []
    · subst h; rfl
    · simp [build_few_shot_examples, if_neg h]
  · intro weeks hnd
    have h1 : ((sortDesc weeks).map ExampleWeek.date).Nodup :=
      ((sortDesc_perm weeks).map ExampleWeek.date).nodup_iff.mpr hnd
    have h2 : List.Chain' (fun a b : Str => a ≠ b)
        ((sortDesc weeks).map ExampleWeek.date) := List.Pairwise.chain' h1
    have h3 : List.Chain' (fun a b : ExampleWeek => a.date ≠ b.date) (sortDesc weeks) :=
      (List.chain'_map ExampleWeek.date).mp h2
    refine chain'_imp2 (fun a b hp hq => ?_) (sortDesc weeks) (sortDesc_chain' weeks) h3
    rcases strLt_or a.date b.date hq with h | h
    · rw [hp] at h; cases h
    · exact h
  · intro mm
    simp [build_prompt, promptNoFewShot]
  · intro mm eb h
    simp only [build_prompt, if_neg h]

set_option maxRecDepth 8192 in
/-- Counterexample to C4 as stated: two weeks sharing the date `20240101`
are both rendered, in their original order, so the rendered dates are not
strictly descending. -/
theorem claim_C4_counterexample :
    sortDesc [⟨"20240101".toList, [], "x".toList⟩, ⟨"20240101".toList, [], "y".toList⟩] =
      [⟨"20240101".toList, [], "x".toList⟩, ⟨"20240101".toList, [], "y".toList⟩] ∧
    ¬ List.Chain' (fun a b => strLt b.date a.date = true)
      (sortDesc [⟨"20240101".toList, [], "x".toList⟩,
        ⟨"20240101".toList, [], "y".toList⟩]) ∧
    build_few_shot_examples
        [⟨"20240101".toList, [], "x".toList⟩, ⟨"20240101".toList, [], "y".toList⟩] =
      exampleBlock ⟨"20240101".toList, [], "x".toList⟩ ++ "\n\n".toList
        ++ exampleBlock ⟨"20240101".toList, [], "y".toList⟩ := by
  refine ⟨by decide, ?_, by decide⟩
  intro h
  rw [show sortDesc [⟨"20240101".toList, [], "x".toList⟩,
    ⟨"20240101".toList, [], "y".toList⟩] =
      [⟨"20240101".toList, [], "x".toList⟩, ⟨"20240101".toList, [], "y".toList⟩]
    from by decide] at h
  have h2 := (List.chain'_cons.mp h).1
  simp only at h2
  cases (by decide :
    strLt "20240101".toList "20240101".toList = false).symm.trans h2

set_option maxRecDepth 8192 in
/-- Witness for the amended C4 at two weeks with distinct dates and at a
non-empty examples block. -/
theorem claim_C4_witness :
    List.Chain' (fun a b => strLt b.date a.date = true)
      (sortDesc [⟨"20240101".toList, [], "x".toList⟩,
        ⟨"20240108".toList, [], "y".toList⟩]) ∧
    build_prompt [] ['b'] =
      introText ++ instructionsText ++ '\n' ::
        (('\n' :: ("FEW-SHOT EXAMPLES:\n".toList ++ ['b'] ++ ['\n']))
          ++ '\n' :: ("TARGET INPUT:\n".toList ++ inputBlock []
          ++ "\n\nGenerate the consolidated department weekly report in markdown now.".toList)) :=
  ⟨claim_C4_amended.2.2.2.2.1 _ (by decide),
    claim_C4_amended.2.2.2.2.2.2 [] ['b'] (by decide)⟩

/-- C5: the output file is written exactly when `call_llm` returned a
non-empty string - a `None` result and an empty-string result both suppress
the write - and the completion message is printed in every case. -/
theorem claim_C5 :
    (∀ (r : Option Str) (out : Str),
      ((_run r out).writes ≠ [] ↔ ∃ s, r = some s ∧ s ≠ [])) ∧
    (∀ out : Str, (_run none out).writes = [] ∧ (_run (some []) out).writes = []) ∧
    (∀ (r : Option Str) (out : Str) (s : Str), r = some s → s ≠ [] →
      (_run r out).writes = [(out, s)]) ∧
    (∀ (r : Option Str) (out : Str), (_run r out).printed = [reportWrittenMsg out]) ∧
    (∀ (dry : Bool) (prompt out : Str) (ev : Option Str)
        (pf : Str → Option PyFloat) (o : CallOutcome),
      ((runner_after_prompt dry prompt out ev pf o).writes ≠ [] ↔
        ∃ s, (call_llm ev pf o).result = some s ∧ s ≠ []) ∧
      ∃ pre, (runner_after_prompt dry prompt out ev pf o).printed =
        pre ++ [reportWrittenMsg out]) := by
  have hiff : ∀ (r : Option Str) (out : Str),
      ((_run r out).writes ≠ [] ↔ ∃ s, r = some s ∧ s ≠ []) := by
    intro r out
    cases r with
    | none => simp [_run]
    | some s =>
      by_cases hs : s = []
      · subst hs; simp [_run]
      · simp [_run, hs]
  refine ⟨hiff, ?_, ?_, ?_, ?_⟩
  · intro out
    exact ⟨rfl, rfl⟩
  · intro r out s hr hs
    subst hr
    simp [_run, hs]
  · intro r out
    rfl
  · intro dry prompt out ev pf o
    refine ⟨hiff _ _, (if dry then [prompt] else []) ++ (call_llm ev pf o).stdout_lines, ?_⟩
    simp [runner_after_prompt, _run, reportWrittenMsg]

/-- Witness for C5: a non-empty result is written to the output path. -/
theorem claim_C5_witness :
    (_run (some ['a']) ['p']).writes = [(['p'], ['a'])] :=
  claim_C5.2.2.1 (some ['a']) ['p'] ['a'] rfl (by decide)

/-- Counterexample to C6 as stated: when the call raises, nothing at all is
written to standard error - the traceback line goes to standard output,
because `print` writes to stdout. -/
theorem claim_C6_counterexample :
    (call_llm none (fun _ => none) (CallOutcome.raises "boom".toList)).result = none ∧
    (call_llm none (fun _ => none) (CallOutcome.raises "boom".toList)).stderr_lines = [] ∧
    (call_llm none (fun _ => none) (CallOutcome.raises "boom".toList)).stdout_lines =
      ["error occurred: boom".toList] :=
  ⟨rfl, rfl, by decide⟩

/-- C6 (amended): any exception during the request or the extraction is
caught, the line `error occurred: <full traceback>` is printed to standard
output (not standard error), and `call_llm` returns `None` instead of
propagating; a non-raising body's value is returned unchanged, so the
function never raises. -/
theorem claim_C6_amended :
    (∀ (ev : Option Str) (pf : Str → Option PyFloat) (tb : Str),
      call_llm ev pf (CallOutcome.raises tb) =
        { result := none
          temperature_used := _parse_temperature ev pf
          stdout_lines := ["error occurred: ".toList ++ tb]
          stderr_lines := [] }) ∧
    (∀ (ev : Option Str) (pf : Str → Option PyFloat) (o : CallOutcome) (tb : Str),
      call_llm_body o = Except.error tb →
      (call_llm ev pf o).result = none ∧
      (call_llm ev pf o).stdout_lines = ["error occurred: ".toList ++ tb] ∧
      (call_llm ev pf o).stderr_lines = []) ∧
    (∀ (ev : Option Str) (pf : Str → Option PyFloat) (o : CallOutcome) (r : Option Str),
      call_llm_body o = Except.ok r → (call_llm ev pf o).result = r) := by
  refine ⟨fun ev pf tb => rfl, ?_, ?_⟩
  · intro ev pf o tb h
    cases o with
    | raises tb2 =>
      simp only [call_llm_body, Except.error.injEq] at h
      subst h
      exact ⟨rfl, rfl, rfl⟩
    | ok resp => exact absurd h (by simp [call_llm_body])
  · intro ev pf o r h
    cases o with
    | raises tb2 => exact absurd h (by simp [call_llm_body])
    | ok resp =>
      simp only [call_llm_body, Except.ok.injEq] at h
      subst h
      rfl

/-- Witness for the amended C6: a successful body's extracted content is
returned unchanged. -/
theorem claim_C6_witness :
    (call_llm none (fun _ => none)
      (CallOutcome.ok ⟨some [⟨some ⟨some ['h']⟩⟩]⟩)).result = some ['h'] :=
  claim_C6_amended.2.2 none (fun _ => none)
    (CallOutcome.ok ⟨some [⟨some ⟨some ['h']⟩⟩]⟩) (some ['h']) rfl

/-- C7: whatever the dry-run flag, the runner performs exactly one model call
with the assembled prompt; with the flag set the prompt is printed first and
a non-empty result is still written to the output file. -/
theorem claim_C7 :
    ∀ (prompt out : Str) (ev : Option Str) (pf : Str → Option PyFloat) (o : CallOutcome),
      (∀ dry : Bool, (runner_after_prompt dry prompt out ev pf o).llm_calls = [prompt]) ∧
      ((runner_after_prompt true prompt out ev pf o).printed =
        prompt :: ((call_llm ev pf o).stdout_lines ++ [reportWrittenMsg out])) ∧
      (∀ s : Str, (call_llm ev pf o).result = some s → s ≠ [] →
        (runner_after_prompt true prompt out ev pf o).writes = [(out, s)]) := by
  intro prompt out ev pf o
  refine ⟨fun dry => rfl, ?_, ?_⟩
  · simp [runner_after_prompt, _run]
  · intro s h hs
    simp [runner_after_prompt, _run, h, hs]

/-- Witness for C7: with dry-run set, a successful call still writes. -/
theorem claim_C7_witness :
    (runner_after_prompt true ['p'] ['o'] none (fun _ => none)
      (CallOutcome.ok ⟨some [⟨some ⟨some ['h']⟩⟩]⟩)).writes = [(['o'], ['h'])] :=
  (claim_C7 ['p'] ['o'] none (fun _ => none)
    (CallOutcome.ok ⟨some [⟨some ⟨some ['h']⟩⟩]⟩)).2.2 ['h'] rfl (by decide)

/-- C8: the temperature `call_llm` passes to the request is the TEMPERATURE
environment variable parsed as a float and clamped to [0, 1]; an unset
variable, a failing parse and NaN all yield exactly 0.5, an infinite value
clamps to the nearest bound, and the result always lies in [0, 1]. -/
theorem claim_C8 :
    ∀ (ev : Option Str) (pf : Str → Option PyFloat) (o : CallOutcome),
      (call_llm ev pf o).temperature_used = _parse_temperature ev pf ∧
      (ev = none → _parse_temperature ev pf = PyFloat.fin (1 / 2)) ∧
      (∀ v, ev = some v → pf v = none →
        _parse_temperature ev pf = PyFloat.fin (1 / 2)) ∧
      (∀ v, ev = some v → pf v = some PyFloat.nan →
        _parse_temperature ev pf = PyFloat.fin (1 / 2)) ∧
      (∀ v q, ev = some v → pf v = some (PyFloat.fin q) →
        _parse_temperature ev pf = PyFloat.fin (max 0 (min 1 q))) ∧
      (∀ v, ev = some v → pf v = some PyFloat.inf →
        _parse_temperature ev pf = PyFloat.fin 1) ∧
      (∀ v, ev = some v → pf v = some PyFloat.ninf →
        _parse_temperature ev pf = PyFloat.fin 0) ∧
      (∃ q : ℚ, _parse_temperature ev pf = PyFloat.fin q ∧ 0 ≤ q ∧ q ≤ 1) := by
  intro ev pf o
  have hfin : ∀ v q, ev = some v → pf v = some (PyFloat.fin q) →
      _parse_temperature ev pf = PyFloat.fin (max 0 (min 1 q)) := by
    intro v q hv hq
    subst hv
    simp only [_parse_temperature, hq]
    rw [if_neg (by simp)]
    have hmin : pymin (PyFloat.fin 1) (PyFloat.fin q) = PyFloat.fin (min 1 q) := by
      simp only [pymin, pyLtB]
      rcases lt_or_le q 1 with h | h
      · rw [if_pos (by simpa using h), min_eq_right h.le]
      · rw [if_neg (by simpa using not_lt.mpr h), min_eq_left h]
    have hmax : pymax (PyFloat.fin 0) (PyFloat.fin (min 1 q)) =
        PyFloat.fin (max 0 (min 1 q)) := by
      simp only [pymax, pyLtB]
      rcases lt_or_le 0 (min 1 q) with h | h
      · rw [if_pos (by simpa using h), max_eq_right h.le]
      · rw [if_neg (by simpa using not_lt.mpr h), max_eq_left h]
    rw [hmin, hmax]
  refine ⟨?_, ?_, ?_, ?_, hfin, ?_, ?_, ?_⟩
  · cases o with
    | raises tb => rfl
    | ok resp => rfl
  · intro hv; subst hv; rfl
  · intro v hv hq; subst hv; simp [_parse_temperature, hq]
  · intro v hv hq; subst hv; simp [_parse_temperature, hq]
  · intro v hv hq
    subst hv
    simp only [_parse_temperature, hq]
    rw [if_neg (by simp)]
    decide
  · intro v hv hq
    subst hv
    simp only [_parse_temperature, hq]
    rw [if_neg (by simp)]
    decide
  · cases ev with
    | none => exact ⟨1 / 2, rfl, by norm_num, by norm_num⟩
    | some v =>
      cases hq : pf v with
      | none => exact ⟨1 / 2, by simp [_parse_temperature, hq], by norm_num, by norm_num⟩
      | some t =>
        cases t with
        | fin q =>
          refine ⟨max 0 (min 1 q), hfin v q rfl hq, le_max_left 0 _, ?_⟩
          exact max_le zero_le_one (min_le_left 1 q)
        | nan => exact ⟨1 / 2, by simp [_parse_temperature, hq], by norm_num, by norm_num⟩
        | inf =>
          refine ⟨1, ?_, zero_le_one, le_refl 1⟩
          simp only [_parse_temperature, hq]
          rw [if_neg (by simp)]
          decide
        | ninf =>
          refine ⟨0, ?_, le_refl 0, zero_le_one⟩
          simp only [_parse_temperature, hq]
          rw [if_neg (by simp)]
          decide

/-- Witness for C8: the value 2 parses and is clamped down to 1. -/
theorem claim_C8_witness :
    _parse_temperature (some ['x']) (fun _ => some (PyFloat.fin 2)) =
      PyFloat.fin (max 0 (min 1 2)) :=
  (claim_C8 (some ['x']) (fun _ => some (PyFloat.fin 2))
    (CallOutcome.raises [])).2.2.2.2.1 ['x'] 2 rfl rfl

theorem dedupAppend_spec :
    ∀ (new existing : List Str), ∃ l, dedupAppend existing new = existing ++ l ∧
      l.Nodup ∧ (∀ c, c ∈ l ↔ (c ∈ new ∧ c ∉ existing)) := by
  intro new
  induction new with
  | nil => intro existing; exact ⟨[], by simp [dedupAppend], by simp, by simp⟩
  | cons mr new ih =>
    intro existing
    by_cases hmr : mr ∈ existing
    · have h1 : dedupAppend existing (mr :: new) = dedupAppend existing new := by
        simp only [dedupAppend, List.foldl_cons, if_pos hmr]
      obtain ⟨l, hl, hnd, hmem⟩ := ih existing
      refine ⟨l, h1 ▸ hl, hnd, fun c => ?_⟩
      rw [hmem c]
      constructor
      · rintro ⟨h2, h3⟩
        exact ⟨List.mem_cons_of_mem _ h2, h3⟩
      · rintro ⟨h2, h3⟩
        rcases List.mem_cons.mp h2 with rfl | h2
        · exact absurd hmr h3
        · exact ⟨h2, h3⟩
    · have h1 : dedupAppend existing (mr :: new) = dedupAppend (existing ++ [mr]) new := by
        simp only [dedupAppend, List.foldl_cons, if_neg hmr]
      obtain ⟨l, hl, hnd, hmem⟩ := ih (existing ++ [mr])
      refine ⟨mr :: l, ?_, ?_, ?_⟩
      · rw [h1, hl]
        simp
      · rw [List.nodup_cons]
        refine ⟨fun hc => ?_, hnd⟩
        exact ((hmem mr).mp hc).2 (by simp)
      · intro c
        rw [List.mem_cons, hmem c]
        constructor
        · rintro (rfl | ⟨h2, h3⟩)
          · exact ⟨List.mem_cons_self _ _, hmr⟩
          · exact ⟨List.mem_cons_of_mem _ h2,
              fun hc => h3 (List.mem_append_left _ hc)⟩
        · rintro ⟨h2, h3⟩
          by_cases hcm : c = mr
          · exact Or.inl hcm
          · rcases List.mem_cons.mp h2 with rfl | h2
            · exact absurd rfl hcm
            · refine Or.inr ⟨h2, fun hc => ?_⟩
              rcases List.mem_append.mp hc with hc | hc
              · exact h3 hc
              · exact hcm (List.mem_singleton.mp hc)

theorem findWeek_mem {date : Str} {ws : List ExampleWeek} {w : ExampleWeek}
    (h : findWeek date ws = some w) : w ∈ ws ∧ w.date = date := by
  induction ws with
  | nil => simp [findWeek] at h
  | cons x rest ih =>
    simp only [findWeek] at h
    split at h
    case isTrue hd =>
      cases h
      exact ⟨List.mem_cons_self _ _, hd⟩
    case isFalse hd =>
      obtain ⟨h1, h2⟩ := ih h
      exact ⟨List.mem_cons_of_mem _ h1, h2⟩

theorem findWeek_mergeWeek_ne {ws : List ExampleWeek} {w : ExampleWeek} {date : Str}
    (hne : w.date ≠ date) :
    findWeek date (mergeWeek ws w) = findWeek date ws := by
  induction ws with
  | nil => simp [mergeWeek, findWeek, hne]
  | cons x rest ih =>
    simp only [mergeWeek]
    split
    case isTrue hxw =>
      simp only [findWeek]
      rw [show (mergeOne x w).date = x.date from rfl]
      have hx : ¬ x.date = date := fun h => hne (by rw [← hxw]; exact h)
      rw [if_neg hx, if_neg hx]
    case isFalse hxw =>
      simp only [findWeek]
      by_cases hx : x.date = date
      · rw [if_pos hx, if_pos hx]
      · rw [if_neg hx, if_neg hx]
        exact ih

theorem findWeek_mergeWeek_eq {ws : List ExampleWeek} {w x : ExampleWeek}
    (h : findWeek w.date ws = some x) :
    findWeek w.date (mergeWeek ws w) = some (mergeOne x w) := by
  induction ws with
  | nil => simp [findWeek] at h
  | cons y rest ih =>
    simp only [findWeek] at h
    simp only [mergeWeek]
    by_cases hy : y.date = w.date
    · rw [if_pos hy] at h
      rw [if_pos hy]
      cases h
      simp only [findWeek]
      rw [if_pos (show (mergeOne x w).date = w.date from hy)]
    · rw [if_neg hy] at h
      rw [if_neg hy]
      simp only [findWeek]
      rw [if_neg hy]
      exact ih h

theorem findWeek_of_nodup {ws : List ExampleWeek} {w : ExampleWeek}
    (hnd : (ws.map ExampleWeek.date).Nodup) (hw : w ∈ ws) :
    findWeek w.date ws = some w := by
  induction ws with
  | nil => cases hw
  | cons y rest ih =>
    rcases List.mem_cons.mp hw with rfl | hw2
    · simp [findWeek]
    · have hy : y.date ≠ w.date := by
        intro h
        have h2 : w.date ∈ rest.map ExampleWeek.date := List.mem_map_of_mem _ hw2
        rw [List.map_cons, List.nodup_cons] at hnd
        exact hnd.1 (h ▸ h2)
      simp only [findWeek]
      rw [if_neg hy]
      rw [List.map_cons, List.nodup_cons] at hnd
      exact ih hnd.2 hw2

theorem mergeWeek_not_mem {ws : List ExampleWeek} {w : ExampleWeek}
    (h : w.date ∉ ws.map ExampleWeek.date) :
    mergeWeek ws w = ws ++ [⟨w.date, w.member_reports, w.team_report⟩] := by
  induction ws with
  | nil => rfl
  | cons x rest ih =>
    simp only [mergeWeek]
    have hx : ¬ x.date = w.date := by
      intro hh
      exact h (by rw [List.map_cons, hh]; exact List.mem_cons_self _ _)
    rw [if_neg hx]
    have h2 : w.date ∉ rest.map ExampleWeek.date :=
      fun hh => h (by rw [List.map_cons]; exact List.mem_cons_of_mem _ hh)
    rw [ih h2]
    simp

theorem addChunk_map_fst :
    ∀ (m : List (Str × List Str)) (d c : Str),
      (addChunk m d c).map Prod.fst =
        if d ∈ m.map Prod.fst then m.map Prod.fst else m.map Prod.fst ++ [d] := by
  intro m d c
  induction m with
  | nil => simp [addChunk]
  | cons p rest ih =>
    obtain ⟨d', cs⟩ := p
    simp only [addChunk]
    by_cases hd : d' = d
    · subst hd
      simp
    · rw [if_neg hd]
      simp only [List.map_cons, ih]
      have hdd : (d ∈ d' :: rest.map Prod.fst) ↔ d ∈ rest.map Prod.fst := by
        constructor
        · intro h
          rcases List.mem_cons.mp h with h | h
          · exact absurd h.symm hd
          · exact h
        · exact List.mem_cons_of_mem _
      by_cases h2 : d ∈ rest.map Prod.fst
      · rw [if_pos h2, if_pos (hdd.mpr h2)]
      · rw [if_neg h2, if_neg (fun hc => h2 (hdd.mp hc))]
        simp

theorem nodup_append_singleton {α : Type} {l : List α} {a : α}
    (h : l.Nodup) (ha : a ∉ l) : (l ++ [a]).Nodup := by
  rw [List.nodup_append]
  exact ⟨h, List.nodup_singleton a,
    fun x hx hxa => ha ((List.mem_singleton.mp hxa) ▸ hx)⟩

theorem addChunk_keys_nodup {m : List (Str × List Str)} {d c : Str}
    (h : (m.map Prod.fst).Nodup) : ((addChunk m d c).map Prod.fst).Nodup := by
  rw [addChunk_map_fst]
  split
  · exact h
  · case isFalse h2 => exact nodup_append_singleton h h2

theorem foldl_addChunk_keys_nodup :
    ∀ (l : List (Str × Str × DirEntry)) (m : List (Str × List Str)),
      (m.map Prod.fst).Nodup →
      ((l.foldl (fun m r => if r.2.2.text = [] then m
        else addChunk m r.2.1 (chunkOf r.1 r.2.2.text)) m).map Prod.fst).Nodup := by
  intro l
  induction l with
  | nil => intro m hm; simpa using hm
  | cons r rest ih =>
    intro m hm
    simp only [List.foldl_cons]
    split
    · exact ih m hm
    · exact ih _ (addChunk_keys_nodup hm)

theorem byDate_keys_nodup (entries : List DirEntry) :
    ((byDate entries).map Prod.fst).Nodup :=
  foldl_addChunk_keys_nodup _ [] (by simp)

theorem filterMap_week_dates_sublist (cands : List DirEntry) :
    ∀ l : List (Str × List Str),
      ((l.filterMap (fun p =>
        if teamTextFor p.1 cands = [] then none
        else some (⟨p.1, p.2, teamTextFor p.1 cands⟩ : ExampleWeek))).map
          ExampleWeek.date).Sublist (l.map Prod.fst) := by
  intro l
  induction l with
  | nil => simp
  | cons p rest ih =>
    simp only [List.filterMap_cons]
    by_cases h : teamTextFor p.1 cands = []
    · rw [if_pos h]
      simp only [List.map_cons]
      exact ih.cons _
    · rw [if_neg h]
      simp only [List.map_cons]
      exact ih.cons₂ _

theorem collect_dates_nodup (entries : List DirEntry) :
    ((collect_examples entries).map ExampleWeek.date).Nodup := by
  have hs : ((collect_examples entries).map ExampleWeek.date).Sublist
      ((byDate entries).map Prod.fst) := by
    exact filterMap_week_dates_sublist (team_candidates entries) (byDate entries)
  exact hs.nodup (byDate_keys_nodup entries)

theorem foldl_mergeWeek_eq_append :
    ∀ (ws acc : List ExampleWeek), ((acc ++ ws).map ExampleWeek.date).Nodup →
      ws.foldl mergeWeek acc = acc ++ ws := by
  intro ws
  induction ws with
  | nil => intro acc _; simp
  | cons w rest ih =>
    intro acc hnd
    simp only [List.foldl_cons]
    have hw : w.date ∉ acc.map ExampleWeek.date := by
      intro hc
      rw [List.map_append, List.nodup_append] at hnd
      exact hnd.2.2 hc (by simp)
    rw [mergeWeek_not_mem hw]
    have heq : (acc ++ [w]) ++ rest = acc ++ w :: rest := by simp
    have hnd2 : (((acc ++ [w]) ++ rest).map ExampleWeek.date).Nodup := by
      rw [heq]; exact hnd
    rw [ih (acc ++ [w]) hnd2, heq]

theorem findWeek_foldl_ne :
    ∀ (l acc : List ExampleWeek) (date : Str),
      (∀ v ∈ l, v.date ≠ date) →
      findWeek date (l.foldl mergeWeek acc) = findWeek date acc := by
  intro l
  induction l with
  | nil => intro acc date _; rfl
  | cons v rest ih =>
    intro acc date hne
    simp only [List.foldl_cons]
    rw [ih _ _ (fun u hu => hne u (List.mem_cons_of_mem _ hu))]
    exact findWeek_mergeWeek_ne (hne v (List.mem_cons_self _ _))

/-- C2 (amended): when the same date occurs in two directories, the merged
week keeps the first directory's chunks as they are (duplicates already
inside them included), appends each second-directory chunk that is not
already present - appended chunks are pairwise distinct - and keeps the
first directory's (always non-empty) team report. -/
theorem claim_C2_amended :
    ∀ (d1 d2 : List DirEntry) (w1 w2 : ExampleWeek),
      w1 ∈ collect_examples d1 → w2 ∈ collect_examples d2 → w2.date = w1.date →
      ∃ w, w ∈ collect_examples_from_dirs [d1, d2] ∧ w.date = w1.date ∧
        w.team_report = w1.team_report ∧
        ∃ l, w.member_reports = w1.member_reports ++ l ∧ l.Nodup ∧
          (∀ c, c ∈ l ↔ (c ∈ w2.member_reports ∧ c ∉ w1.member_reports)) := by
  intro d1 d2 w1 w2 hw1 hw2 hdate
  have hnd1 := collect_dates_nodup d1
  have hnd2 := collect_dates_nodup d2
  have h0 : collect_examples_from_dirs [d1, d2] =
      (collect_examples d2).foldl mergeWeek ((collect_examples d1).foldl mergeWeek []) :=
    rfl
  have hA : (collect_examples d1).foldl mergeWeek [] = collect_examples d1 :=
    foldl_mergeWeek_eq_append _ [] (by simpa using hnd1)
  obtain ⟨l1, l2, hsplit⟩ := List.append_of_mem hw2
  have hnd2' := hnd2
  rw [hsplit, List.map_append, List.map_cons, List.nodup_append] at hnd2'
  have hl1 : ∀ v ∈ l1, v.date ≠ w2.date := by
    intro v hv h
    exact hnd2'.2.2 (h ▸ List.mem_map_of_mem _ hv) (List.mem_cons_self _ _)
  have hl2 : ∀ v ∈ l2, v.date ≠ w2.date := by
    intro v hv h
    exact (List.nodup_cons.mp hnd2'.2.1).1 (h ▸ List.mem_map_of_mem _ hv)
  have hfind1 : findWeek w2.date ((collect_examples d1).foldl mergeWeek []) = some w1 := by
    rw [hA, hdate]
    exact findWeek_of_nodup hnd1 hw1
  have hfold : findWeek w2.date (collect_examples_from_dirs [d1, d2]) =
      some (mergeOne w1 w2) := by
    rw [h0, hsplit, List.foldl_append, List.foldl_cons]
    rw [findWeek_foldl_ne l2 _ _ hl2]
    apply findWeek_mergeWeek_eq
    rw [findWeek_foldl_ne l1 _ _ hl1]
    exact hfind1
  obtain ⟨hmem, _⟩ := findWeek_mem hfold
  obtain ⟨l, hl, hnd, hmemb⟩ := dedupAppend_spec w2.member_reports w1.member_reports
  exact ⟨mergeOne w1 w2, hmem, rfl,
    mergeOne_team_ne (collect_examples_team_ne hw1), l, hl, hnd, hmemb⟩

set_option maxRecDepth 8192 in
/-- Counterexample to C2 as stated: the first directory holds the same
report in two formats with identical text, producing a week whose chunk list
already contains an exact duplicate; the second directory contributes the
same chunk for the same date.  The merged week keeps the duplicate, so the
merged chunks are not the union with duplicates appearing only once. -/
theorem claim_C2_counterexample :
    collect_examples_from_dirs
        [[⟨"A工作報告-20240101.md".toList, true, "t".toList⟩,
          ⟨"A工作報告-20240101.doc".toList, true, "t".toList⟩,
          ⟨"隊之工作報告".toList, true, "r".toList⟩],
         [⟨"A工作報告-20240101.md".toList, true, "t".toList⟩,
          ⟨"隊之工作報告".toList, true, "r".toList⟩]] =
      [⟨"20240101".toList,
        [chunkOf "A".toList "t".toList, chunkOf "A".toList "t".toList],
        "r".toList⟩] ∧
    ¬ (∀ w ∈ collect_examples_from_dirs
        [[⟨"A工作報告-20240101.md".toList, true, "t".toList⟩,
          ⟨"A工作報告-20240101.doc".toList, true, "t".toList⟩,
          ⟨"隊之工作報告".toList, true, "r".toList⟩],
         [⟨"A工作報告-20240101.md".toList, true, "t".toList⟩,
          ⟨"隊之工作報告".toList, true, "r".toList⟩]],
        w.member_reports.Nodup) := by
  constructor
  · decide
  · decide

/-- Witness for the amended C2: both directories hold the same date, merged
into one week keeping the first directory's team report and appending the
second directory's distinct chunk. -/
theorem claim_C2_witness :
    ∃ w, w ∈ collect_examples_from_dirs
        [[⟨"B之工作報告-20240102.md".toList, true, "u".toList⟩],
         [⟨"B之工作報告-20240102.md".toList, true, "v".toList⟩]] ∧
      w.date = "20240102".toList ∧ w.team_report = "u".toList ∧
      ∃ l, w.member_reports = [chunkOf "B之".toList "u".toList] ++ l ∧ l.Nodup ∧
        (∀ c, c ∈ l ↔ (c ∈ [chunkOf "B之".toList "v".toList] ∧
          c ∉ [chunkOf "B之".toList "u".toList])) :=
  claim_C2_amended
    [⟨"B之工作報告-20240102.md".toList, true, "u".toList⟩]
    [⟨"B之工作報告-20240102.md".toList, true, "v".toList⟩]
    ⟨"20240102".toList, [chunkOf "B之".toList "u".toList], "u".toList⟩
    ⟨"20240102".toList, [chunkOf "B之".toList "v".toList], "v".toList⟩
    (by decide) (by decide) rfl
